import Mathlib

/-!
# Verification of dcron's job-wrapper chain (`cron/chain.go`)

Shallow embedding of the decorator wrappers `Chain.Then`, `Recover`,
`DelayIfStillRunning` and `SkipIfStillRunning` from `cron/chain.go`.

* `Chain.Then` is embedded directly as the index loop from the source.
* A single invocation of a Job is modelled by its observable effect
  (`Exec`): the log records it emits and its outcome (normal return or a
  panic carrying a Go value, which may be `nil`).  `Recover` is embedded
  as the transformation of that effect performed by the deferred
  `recover()` block in the source.
* The two synchronization wrappers close over mutable state (`sync.Mutex`
  resp. a 1-buffered channel) shared by all invocations of the wrapped
  Job.  They are embedded as labelled transition systems: a state holds
  the synchronization primitive, the program counters of the (finitely
  many) invocations, the event history, and the emitted log records; an
  executable step function `dstep` / `sstep` performs one atomic action
  of one invocation, mirroring the statements of the source line by line.
-/

set_option autoImplicit false

namespace Dcron

/-- Modelled from the spec: a Go interface value as observed by `recover()`:
either `nil` or some concrete non-nil value (the `Job` interface and the
panic machinery live outside `src/`). -/
inductive GoVal
  | goNil
  | val (s : String)
deriving DecidableEq

/-- Modelled from the spec: the stack trace returned by
`runtime/debug.Stack()` at the failure point, kept abstract. -/
def debugStack : String := "goroutine stack trace"

/-- A log record as emitted through the `dlog.Logger` capability.  The
record keeps the arguments the source passes to the logger, so that
"contains the fault value and trace" resp. "contains the duration" are
visible in the model. -/
inductive LogRec
  | panicLog (r : GoVal) (stack : String)
  | delayLog (dur : Nat)
  | skipLog
deriving DecidableEq

/-- Log severities offered by the logging capability. -/
inductive LogLevel
  | error
  | info
deriving DecidableEq

/-- Severity of each record: `Recover` logs with `Errorf`, the two
synchronization wrappers with `Infof`. -/
def LogRec.level : LogRec → LogLevel
  | .panicLog _ _ => .error
  | .delayLog _ => .info
  | .skipLog => .info

/-- Outcome of one invocation of a Job: normal return, or a panic
carrying a Go value. -/
inductive Outcome
  | normal
  | panicked (v : GoVal)
deriving DecidableEq

/-- Observable effect of one invocation of a Job: the log records it
emits (in order) and its outcome. -/
structure Exec where
  logs : List LogRec
  outcome : Outcome
deriving DecidableEq

/-! ## Chain (`cron/chain.go` lines 11-39) -/

/-- `type JobWrapper func(Job) Job`.  The Go `Job` interface is abstract,
so the wrapper type is parametric in the Job representation. -/
def JobWrapper (Job : Type) : Type := Job → Job

/-- `type Chain struct { wrappers []JobWrapper }`. -/
structure Chain (Job : Type) where
  wrappers : List (JobWrapper Job)

/-- `func NewChain(c ...JobWrapper) Chain`. -/
def NewChain {Job : Type} (c : List (JobWrapper Job)) : Chain Job :=
  ⟨c⟩

/-- `func (c Chain) Then(j Job) Job`, embedded as the source's loop
`for i := range c.wrappers { j = c.wrappers[len(c.wrappers)-i-1](j) }`.
(The `id` default of `getD` is never used: the index is always in
range.) -/
def Chain.Then {Job : Type} (c : Chain Job) (j : Job) : Job :=
  (List.range c.wrappers.length).foldl
    (fun acc i => c.wrappers.getD (c.wrappers.length - i - 1) id acc) j

/-! ## Recover (`cron/chain.go` lines 41-53) -/

/-- `func Recover(logger dlog.Logger) JobWrapper`, as the effect of one
invocation of the wrapped Job.  The source runs `j.Run()` under
`defer func() { if r := recover(); r != nil { logger.Errorf(...) } }()`:
the deferred `recover()` always stops a panic (so the wrapper returns
normally), and the error record is emitted, after the inner Job's own
records, exactly when the recovered value is non-nil. -/
def Recover (j : Exec) : Exec :=
  { logs := j.logs ++
      (match j.outcome with
        | .panicked r => if r = GoVal.goNil then [] else [LogRec.panicLog r debugStack]
        | .normal => []),
    outcome := .normal }

/-! ## DelayIfStillRunning (`cron/chain.go` lines 55-71)

The wrapper closes over `var mu sync.Mutex`; every invocation of the
wrapped Job executes `start := time.Now(); mu.Lock();
defer mu.Unlock(); if dur := time.Since(start); dur > time.Minute
{ logger.Infof("delay duration=%v", dur) }; j.Run()`.

Each concurrent invocation is one "thread" of the transition system
below; its atomic actions are the statements of that body: `arrive`
records `start := time.Now()` and begins `mu.Lock()`; `acquire` is the
return of `mu.Lock()` together with the threshold test and the possible
`Infof` record, after which the inner `j.Run()` is in progress; `finish`
is the return (normal or panicking) of `j.Run()` followed by the
deferred `mu.Unlock()`, which Go runs on every exit path.  `tick`
advances the clock. -/

/-- `time.Minute` in nanoseconds (`time.Duration` units). -/
def timeMinute : Nat := 60000000000

/-- Program counter of one invocation of a `DelayIfStillRunning`-wrapped
Job: not yet issued; `start` recorded (`t0`) and blocked in `mu.Lock()`;
lock held and `j.Run()` in progress (`t0`, acquisition time `tAcq`); or
returned (with the outcome of `j.Run()`: `fault = true` means it
panicked). -/
inductive DPc
  | idle
  | waiting (t0 : Nat)
  | running (t0 tAcq : Nat)
  | done (t0 tAcq : Nat) (fault : Bool)
deriving DecidableEq

/-- History event of the delay system: `enter i w` records that
invocation `i` acquired the lock after waiting `w`, and entered
`j.Run()`; `exit i` that invocation `i` left `j.Run()` and released the
lock. -/
inductive DEv
  | enter (i : Nat) (wait : Nat)
  | exit (i : Nat)
deriving DecidableEq

/-- State of a `DelayIfStillRunning`-wrapped Job under finitely many
concurrent invocations: the clock, the mutex (`some i` = held by
invocation `i`, `none` = free), the invocations' program counters, the
event history (newest first), and the records emitted through the
logger. -/
structure DState where
  now : Nat
  lock : Option Nat
  threads : List DPc
  trace : List DEv
  logs : List LogRec
deriving DecidableEq

/-- Atomic actions of the delay system. -/
inductive DAct
  | tick (n : Nat)
  | arrive (i : Nat)
  | acquire (i : Nat)
  | finish (i : Nat) (fault : Bool)

/-- The records emitted when the lock is acquired after waiting `dur`:
`if dur := time.Since(start); dur > time.Minute { logger.Infof("delay duration=%v", dur) }`. -/
def delayLogs (dur : Nat) : List LogRec :=
  if timeMinute < dur then [LogRec.delayLog dur] else []

/-- One atomic step of the delay system (`none` = the action is not
enabled: the thread is not at that statement, or `mu.Lock()` cannot
return because the mutex is held). -/
def dstep (s : DState) : DAct → Option DState
  | .tick n => some { s with now := s.now + n }
  | .arrive i =>
    match s.threads[i]? with
    | some .idle => some { s with threads := s.threads.set i (.waiting s.now) }
    | _ => none
  | .acquire i =>
    match s.threads[i]? with
    | some (.waiting t0) =>
      match s.lock with
      | some _ => none
      | none =>
        some { s with
          lock := some i
          threads := s.threads.set i (.running t0 s.now)
          trace := DEv.enter i (s.now - t0) :: s.trace
          logs := s.logs ++ delayLogs (s.now - t0) }
    | _ => none
  | .finish i fault =>
    match s.threads[i]? with
    | some (.running t0 tAcq) =>
      some { s with
        lock := none
        threads := s.threads.set i (.done t0 tAcq fault)
        trace := DEv.exit i :: s.trace }
    | _ => none

/-- Run a list of actions from a state. -/
def drun (s : DState) : List DAct → Option DState
  | [] => some s
  | a :: rest =>
    match dstep s a with
    | some s' => drun s' rest
    | none => none

/-- Initial state: fresh mutex, `n` pending invocations, nothing logged. -/
def dinit (n : Nat) : DState :=
  ⟨0, none, List.replicate n .idle, [], []⟩

/-- Reachable states of a `DelayIfStillRunning`-wrapped Job with `n`
invocations. -/
def DReach (n : Nat) (s : DState) : Prop :=
  ∃ acts, drun (dinit n) acts = some s

/-- Interprets an event history (newest first): `some none` = a
well-nested serialized history, currently nobody inside `j.Run()`;
`some (some i)` = well-nested, invocation `i` currently inside
`j.Run()`; `none` = not an alternating enter/exit sequence.  A history
accepted by `traceState` is exactly an alternation
`enter i₁, exit i₁, enter i₂, exit i₂, …`: executions happen one at a
time, in the order the lock was acquired. -/
def traceState : List DEv → Option (Option Nat)
  | [] => some none
  | DEv.enter i _ :: rest =>
    match traceState rest with
    | some none => some (some i)
    | _ => none
  | DEv.exit i :: rest =>
    match traceState rest with
    | some (some j) => if i = j then some none else none
    | _ => none

/-- Does this event record an acquisition by invocation `i`? -/
def DEv.isEnterOf (i : Nat) : DEv → Bool
  | .enter j _ => j == i
  | .exit _ => false

/-- The delay record an acquisition event gives rise to, if any. -/
def DEv.delayOf : DEv → Option LogRec
  | .enter _ w => if timeMinute < w then some (.delayLog w) else none
  | .exit _ => none

/-- 1 iff this invocation has acquired the lock (is running or done). -/
def pcEnteredCount : Option DPc → Nat
  | some (.running _ _) => 1
  | some (.done _ _ _) => 1
  | _ => 0

/-- Inductive invariant of the delay system. -/
structure DInv (s : DState) : Prop where
  lockPc : ∀ i, (∃ t0 ta, s.threads[i]? = some (.running t0 ta)) ↔ s.lock = some i
  traceOk : traceState s.trace = some s.lock
  enterCount : ∀ i, s.trace.countP (DEv.isEnterOf i) = pcEnteredCount s.threads[i]?
  logsOk : s.logs = s.trace.reverse.filterMap DEv.delayOf

/-! ## SkipIfStillRunning (`cron/chain.go` lines 73-89)

The wrapper closes over `var ch = make(chan struct{}, 1); ch <- struct{}{}`:
a single-slot buffer initially holding one availability token.  Every
invocation of the wrapped Job executes
`select { case v := <-ch: defer func() { ch <- v }(); j.Run()
default: logger.Infof("skip") }`.

Each concurrent invocation is one "thread" of the transition system
below.  `invoke` is the `select` statement, which is atomic and never
blocks: if the buffer holds the token the invocation takes it and enters
`j.Run()`, otherwise it hits `default`, emits the skip record and
returns.  `finish` is the return (normal or panicking) of `j.Run()`
followed by the deferred `ch <- v`, which Go runs on every exit path and
which puts the token back into the buffer. -/

/-- Program counter of one invocation of a `SkipIfStillRunning`-wrapped
Job: not yet issued; holding the token inside `j.Run()`; returned after
running (`fault = true` means `j.Run()` panicked, and the panic keeps
propagating out of the wrapper); or returned via the `default` branch
without running the inner Job. -/
inductive SPc
  | idle
  | running
  | done (fault : Bool)
  | skipped
deriving DecidableEq

/-- State of a `SkipIfStillRunning`-wrapped Job under finitely many
concurrent invocations: whether the buffer currently holds the
availability token, the invocations' program counters, and the records
emitted through the logger. -/
structure SState where
  token : Bool
  threads : List SPc
  logs : List LogRec
deriving DecidableEq

/-- Atomic actions of the skip system. -/
inductive SAct
  | invoke (i : Nat)
  | finish (i : Nat) (fault : Bool)

/-- One atomic step of the skip system (`none` = the action is not
enabled).  Note that `invoke` is always enabled for a pending
invocation — the `select` never blocks — and is deterministic: with the
token buffered the receive case is ready and chosen, otherwise the
`default` branch runs. -/
def sstep (s : SState) : SAct → Option SState
  | .invoke i =>
    match s.threads[i]? with
    | some .idle =>
      if s.token then
        some { s with token := false, threads := s.threads.set i .running }
      else
        some { s with threads := s.threads.set i .skipped,
                      logs := s.logs ++ [LogRec.skipLog] }
    | _ => none
  | .finish i fault =>
    match s.threads[i]? with
    | some .running =>
      some { s with token := true, threads := s.threads.set i (.done fault) }
    | _ => none

/-- Run a list of actions from a state. -/
def srun (s : SState) : List SAct → Option SState
  | [] => some s
  | a :: rest =>
    match sstep s a with
    | some s' => srun s' rest
    | none => none

/-- Initial state: the token is in the buffer (`ch <- struct{}{}` at
wrapper-application time), `n` pending invocations, nothing logged. -/
def sinit (n : Nat) : SState :=
  ⟨true, List.replicate n .idle, []⟩

/-- Reachable states of a `SkipIfStillRunning`-wrapped Job with `n`
invocations. -/
def SReach (n : Nat) (s : SState) : Prop :=
  ∃ acts, srun (sinit n) acts = some s

/-- Inductive invariant of the skip system: the single token is either
in the buffer (and then nobody is inside `j.Run()`) or held by the one
invocation currently inside `j.Run()`. -/
structure SInv (s : SState) : Prop where
  tokExcl :
    (s.token = true ∧ ∀ i : Nat, s.threads[i]? ≠ some SPc.running) ∨
    (s.token = false ∧ ∃ k : Nat, s.threads[k]? = some SPc.running ∧
      ∀ i : Nat, s.threads[i]? = some SPc.running → i = k)

/-! ## Concrete states used by the witnesses -/

/-- Delay system state reached from `dinit 2` by `arrive 0`, `acquire 0`,
`arrive 1`: invocation 0 is inside `j.Run()`, invocation 1 waits. -/
def s0Delay : DState :=
  ⟨0, some 0, [DPc.running 0 0, DPc.waiting 0], [DEv.enter 0 0], []⟩

/-- Delay system state reached from `dinit 1` by `arrive 0`,
`tick 70000000000`, `acquire 0`, `finish 0 false`: the single invocation
waited 70s for the lock, so the delay record was emitted. -/
def s5Delay : DState :=
  ⟨70000000000, none, [DPc.done 0 70000000000 false],
    [DEv.exit 0, DEv.enter 0 70000000000], [LogRec.delayLog 70000000000]⟩

/-- A delay system state with invocation 0 inside `j.Run()` and
invocation 1 waiting. -/
def d7s : DState :=
  ⟨5, some 0, [DPc.running 1 3, DPc.waiting 2], [DEv.enter 0 2], []⟩

/-- The state after `finish 0 true` (a panicking inner run) from `d7s`. -/
def d7s' : DState :=
  ⟨5, none, [DPc.done 1 3 true, DPc.waiting 2], [DEv.exit 0, DEv.enter 0 2], []⟩

/-- Skip system state reached from `sinit 2` by `invoke 0`: invocation 0
is inside `j.Run()` holding the token, invocation 1 still pending. -/
def s0Skip : SState :=
  ⟨false, [SPc.running, SPc.idle], []⟩

/-! ## Proofs -/

/-! ## Lemmas about `Chain.Then` -/

theorem chain_then_loop {Job : Type} (ws : List (JobWrapper Job)) (j : Job) :
    (List.range ws.length).foldl
      (fun acc i => ws.getD (ws.length - i - 1) id acc) j
      = ws.foldr (fun w a => w a) j := by
  induction ws generalizing j with
  | nil => simp
  | cons w ws ih =>
    have hlen : (w :: ws).length = ws.length + 1 := rfl
    rw [hlen, List.range_succ, List.foldl_append]
    have hinner :
        (List.range ws.length).foldl
          (fun acc i => (w :: ws).getD (ws.length + 1 - i - 1) id acc) j
          = (List.range ws.length).foldl
              (fun acc i => ws.getD (ws.length - i - 1) id acc) j := by
      apply List.foldl_ext
      intro a i hi
      have hi' : i < ws.length := List.mem_range.mp hi
      have h1 : ws.length + 1 - i - 1 = (ws.length - i - 1) + 1 := by omega
      rw [h1, List.getD_cons_succ]
    simp only [List.foldl_cons, List.foldl_nil]
    rw [hinner, ih]
    have h0 : ws.length + 1 - ws.length - 1 = 0 := by omega
    rw [h0, List.getD_cons_zero]
    rfl

/-! ### Invariant preservation for the delay system -/

theorem getElem?_some_lt {α : Type} {l : List α} {i : Nat} {x : α} (h : l[i]? = some x) :
    i < l.length :=
  (List.getElem?_eq_some.mp h).1

theorem set_getElem?_self {α : Type} {l : List α} {i : Nat} (a : α) (h : i < l.length) :
    (l.set i a)[i]? = some a := by
  simp [List.getElem?_set_self', h]

theorem set_getElem?_ne {α : Type} {l : List α} {i j : Nat} (a : α) (h : i ≠ j) :
    (l.set i a)[j]? = l[j]? :=
  List.getElem?_set_ne h

theorem dinv_step {s s' : DState} {a : DAct} (hs : DInv s) (h : dstep s a = some s') :
    DInv s' := by
  obtain ⟨hlockPc, htrace, hcount, hlogs⟩ := hs
  cases a with
  | tick n =>
    simp only [dstep] at h
    cases h
    exact ⟨hlockPc, htrace, hcount, hlogs⟩
  | arrive i =>
    simp only [dstep] at h
    split at h
    · rename_i heq
      cases h
      have hi : i < s.threads.length := getElem?_some_lt heq
      refine ⟨?_, htrace, ?_, hlogs⟩
      · intro j
        rcases eq_or_ne i j with rfl | hij
        · constructor
          · rintro ⟨t0, ta, hx⟩
            rw [set_getElem?_self _ hi] at hx
            simp at hx
          · intro hl
            obtain ⟨t0, ta, hx⟩ := (hlockPc i).mpr hl
            rw [heq] at hx
            simp at hx
        · constructor
          · rintro ⟨t0, ta, hx⟩
            rw [set_getElem?_ne _ hij] at hx
            exact (hlockPc j).mp ⟨t0, ta, hx⟩
          · intro hl
            obtain ⟨t0, ta, hx⟩ := (hlockPc j).mpr hl
            exact ⟨t0, ta, by rw [set_getElem?_ne _ hij]; exact hx⟩
      · intro j
        rcases eq_or_ne i j with rfl | hij
        · rw [set_getElem?_self _ hi]
          have h0 := hcount i
          rw [heq] at h0
          simpa [pcEnteredCount] using h0
        · rw [set_getElem?_ne _ hij]
          exact hcount j
    · cases h
  | acquire i =>
    simp only [dstep] at h
    split at h
    · rename_i t0 heq
      split at h
      · cases h
      · rename_i hlock
        cases h
        have hi : i < s.threads.length := getElem?_some_lt heq
        rw [hlock] at htrace
        refine ⟨?_, ?_, ?_, ?_⟩
        · intro j
          rcases eq_or_ne i j with rfl | hij
          · exact ⟨fun _ => rfl, fun _ => ⟨t0, s.now, set_getElem?_self _ hi⟩⟩
          · constructor
            · rintro ⟨a, b, hx⟩
              rw [set_getElem?_ne _ hij] at hx
              have hj := (hlockPc j).mp ⟨a, b, hx⟩
              rw [hlock] at hj
              simp at hj
            · intro hj
              simp only [Option.some.injEq] at hj
              exact absurd hj hij
        · simp [traceState, htrace]
        · intro j
          rw [List.countP_cons]
          rcases eq_or_ne i j with rfl | hij
          · rw [set_getElem?_self _ hi]
            have h0 := hcount i
            rw [heq] at h0
            simp only [pcEnteredCount] at h0 ⊢
            simp [DEv.isEnterOf, h0]
          · rw [set_getElem?_ne _ hij]
            have h0 := hcount j
            simp [DEv.isEnterOf, Nat.succ_ne_self, hij, h0]
        · simp only [List.reverse_cons, List.filterMap_append, hlogs]
          congr 1
          simp only [List.filterMap_cons, List.filterMap_nil, DEv.delayOf, delayLogs]
          by_cases hw : timeMinute < s.now - t0 <;> simp [hw]
    · cases h
  | finish i fault =>
    simp only [dstep] at h
    split at h
    · rename_i t0 ta heq
      cases h
      have hi : i < s.threads.length := getElem?_some_lt heq
      have hlock : s.lock = some i := (hlockPc i).mp ⟨t0, ta, heq⟩
      rw [hlock] at htrace
      refine ⟨?_, ?_, ?_, ?_⟩
      · intro j
        constructor
        · rintro ⟨a, b, hx⟩
          rcases eq_or_ne i j with rfl | hij
          · rw [set_getElem?_self _ hi] at hx
            simp at hx
          · rw [set_getElem?_ne _ hij] at hx
            have hj := (hlockPc j).mp ⟨a, b, hx⟩
            rw [hlock] at hj
            simp only [Option.some.injEq] at hj
            exact absurd hj hij
        · intro hj
          simp at hj
      · simp [traceState, htrace]
      · intro j
        rw [List.countP_cons]
        rcases eq_or_ne i j with rfl | hij
        · rw [set_getElem?_self _ hi]
          have h0 := hcount i
          rw [heq] at h0
          simp only [pcEnteredCount] at h0 ⊢
          simp [DEv.isEnterOf, h0]
        · rw [set_getElem?_ne _ hij]
          have h0 := hcount j
          simp [DEv.isEnterOf, h0]
      · simp only [List.reverse_cons, List.filterMap_append, hlogs]
        simp [DEv.delayOf]
    · cases h

theorem dinv_drun :
    ∀ (acts : List DAct) (s0 s : DState), DInv s0 → drun s0 acts = some s → DInv s := by
  intro acts
  induction acts with
  | nil =>
    intro s0 s h0 h
    simp only [drun] at h
    cases h
    exact h0
  | cons a rest ih =>
    intro s0 s h0 h
    simp only [drun] at h
    cases hstep : dstep s0 a with
    | none => rw [hstep] at h; cases h
    | some s1 => rw [hstep] at h; exact ih s1 s (dinv_step h0 hstep) h

theorem dinv_init (n : Nat) : DInv (dinit n) := by
  refine ⟨?_, rfl, ?_, rfl⟩
  · intro i
    constructor
    · rintro ⟨t0, ta, hx⟩
      rw [show (dinit n).threads = List.replicate n DPc.idle from rfl,
        List.getElem?_replicate] at hx
      split at hx <;> simp at hx
    · intro hl
      exact Option.noConfusion hl
  · intro i
    show List.countP _ ([] : List DEv) = pcEnteredCount (List.replicate n DPc.idle)[i]?
    rw [List.getElem?_replicate]
    by_cases hin : i < n <;> simp [hin, pcEnteredCount]

theorem delay_inv {n : Nat} {s : DState} (h : DReach n s) : DInv s := by
  obtain ⟨acts, hr⟩ := h
  exact dinv_drun acts _ s (dinv_init n) hr

theorem sinv_step {s s' : SState} {a : SAct} (hs : SInv s) (h : sstep s a = some s') :
    SInv s' := by
  obtain ⟨htok⟩ := hs
  cases a with
  | invoke i =>
    simp only [sstep] at h
    split at h
    · rename_i heq
      have hi : i < s.threads.length := getElem?_some_lt heq
      split at h
      · rename_i htrue
        cases h
        refine ⟨Or.inr ⟨rfl, i, set_getElem?_self _ hi, ?_⟩⟩
        intro j hj
        by_contra hij
        rw [set_getElem?_ne _ (fun hh => hij hh.symm)] at hj
        rcases htok with ⟨_, hnone⟩ | ⟨hfalse, _⟩
        · exact hnone j hj
        · rw [htrue] at hfalse; cases hfalse
      · rename_i hfalse
        cases h
        have htokf : s.token = false := by
          cases hst : s.token
          · rfl
          · exact absurd hst hfalse
        rcases htok with ⟨htr, _⟩ | ⟨_, k, hk, huniq⟩
        · rw [htr] at htokf; cases htokf
        · refine ⟨Or.inr ⟨htokf, k, ?_, ?_⟩⟩
          · have hik : i ≠ k := by
              intro hh
              rw [hh] at heq
              rw [heq] at hk
              cases hk
            rw [set_getElem?_ne _ hik]
            exact hk
          · intro j hj
            rcases eq_or_ne i j with rfl | hij
            · rw [set_getElem?_self _ hi] at hj
              cases hj
            · rw [set_getElem?_ne _ hij] at hj
              exact huniq j hj
    · cases h
  | finish i fault =>
    simp only [sstep] at h
    split at h
    · rename_i heq
      cases h
      have hi : i < s.threads.length := getElem?_some_lt heq
      refine ⟨Or.inl ⟨rfl, ?_⟩⟩
      intro j hj
      rcases eq_or_ne i j with rfl | hij
      · rw [set_getElem?_self _ hi] at hj
        cases hj
      · rw [set_getElem?_ne _ hij] at hj
        rcases htok with ⟨_, hnone⟩ | ⟨_, k, hk, huniq⟩
        · exact hnone j hj
        · have hjk := huniq j hj
          have hik := huniq i heq
          exact hij (hik.trans hjk.symm) |>.elim
    · cases h

theorem sinv_srun :
    ∀ (acts : List SAct) (s0 s : SState), SInv s0 → srun s0 acts = some s → SInv s := by
  intro acts
  induction acts with
  | nil =>
    intro s0 s h0 h
    simp only [srun] at h
    cases h
    exact h0
  | cons a rest ih =>
    intro s0 s h0 h
    simp only [srun] at h
    cases hstep : sstep s0 a with
    | none => rw [hstep] at h; cases h
    | some s1 => rw [hstep] at h; exact ih s1 s (sinv_step h0 hstep) h

theorem sinv_init (n : Nat) : SInv (sinit n) := by
  refine ⟨Or.inl ⟨rfl, ?_⟩⟩
  intro i hx
  rw [show (sinit n).threads = List.replicate n SPc.idle from rfl,
    List.getElem?_replicate] at hx
  split at hx <;> simp at hx

theorem skip_inv {n : Nat} {s : SState} (h : SReach n s) : SInv s := by
  obtain ⟨acts, hr⟩ := h
  exact sinv_srun acts _ s (sinv_init n) hr

/-! ### Helper lemmas for the delay claims -/

theorem pcEnteredCount_le_one (o : Option DPc) : pcEnteredCount o ≤ 1 := by
  cases o with
  | none => exact Nat.zero_le 1
  | some pc => cases pc <;> simp [pcEnteredCount]

theorem delay_progress_free {s : DState} {i t0 : Nat}
    (hw : s.threads[i]? = some (DPc.waiting t0)) (hl : s.lock = none) :
    ∃ acts s', drun s acts = some s' ∧
      ∃ ta, s'.threads[i]? = some (DPc.done t0 ta false) := by
  have hi : i < s.threads.length := getElem?_some_lt hw
  have hstep1 : dstep s (DAct.acquire i) =
      some { s with lock := some i,
                    threads := s.threads.set i (DPc.running t0 s.now),
                    trace := DEv.enter i (s.now - t0) :: s.trace,
                    logs := s.logs ++ delayLogs (s.now - t0) } := by
    simp only [dstep, hw, hl]
  have hget1 : (s.threads.set i (DPc.running t0 s.now))[i]? =
      some (DPc.running t0 s.now) :=
    set_getElem?_self _ hi
  have hstep2 : dstep
      { s with lock := some i,
               threads := s.threads.set i (DPc.running t0 s.now),
               trace := DEv.enter i (s.now - t0) :: s.trace,
               logs := s.logs ++ delayLogs (s.now - t0) } (DAct.finish i false) =
      some { s with lock := none,
                    threads := (s.threads.set i (DPc.running t0 s.now)).set i
                      (DPc.done t0 s.now false),
                    trace := DEv.exit i :: DEv.enter i (s.now - t0) :: s.trace,
                    logs := s.logs ++ delayLogs (s.now - t0) } := by
    simp only [dstep, hget1]
  refine ⟨[DAct.acquire i, DAct.finish i false],
    { s with lock := none,
             threads := (s.threads.set i (DPc.running t0 s.now)).set i
               (DPc.done t0 s.now false),
             trace := DEv.exit i :: DEv.enter i (s.now - t0) :: s.trace,
             logs := s.logs ++ delayLogs (s.now - t0) }, ?_, s.now, ?_⟩
  · simp only [drun, hstep1, hstep2]
  · have hi1 : i < (s.threads.set i (DPc.running t0 s.now)).length := by
      rw [List.length_set]; exact hi
    exact set_getElem?_self _ hi1

theorem delay_progress {n : Nat} {s : DState} (h : DReach n s) {i t0 : Nat}
    (hw : s.threads[i]? = some (DPc.waiting t0)) :
    ∃ acts s', drun s acts = some s' ∧
      ∃ ta, s'.threads[i]? = some (DPc.done t0 ta false) := by
  have inv := delay_inv h
  cases hl : s.lock with
  | none => exact delay_progress_free hw hl
  | some k =>
    obtain ⟨tk, tak, hk⟩ := (inv.lockPc k).mpr hl
    have hik : k ≠ i := by
      intro hh
      rw [hh] at hk
      rw [hk] at hw
      cases hw
    have hstep0 : dstep s (DAct.finish k false) =
        some { s with lock := none,
                      threads := s.threads.set k (DPc.done tk tak false),
                      trace := DEv.exit k :: s.trace } := by
      simp only [dstep, hk]
    have hw1 : ({ s with lock := none, threads := s.threads.set k (DPc.done tk tak false), trace := DEv.exit k :: s.trace } : DState).threads[i]? = some (DPc.waiting t0) := by
      show (s.threads.set k (DPc.done tk tak false))[i]? = _
      rw [set_getElem?_ne _ hik]
      exact hw
    obtain ⟨acts, s', hrun, ta, hdone⟩ := delay_progress_free hw1 rfl
    refine ⟨DAct.finish k false :: acts, s', ?_, ta, hdone⟩
    simp only [drun, hstep0]
    exact hrun

/-! ### Claim theorems for `DelayIfStillRunning` -/

/-- C1: for every Job wrapped by `DelayIfStillRunning`, no two
invocations execute the inner `j.Run()` concurrently (mutual exclusion
of the `running` program counter); the event history is an alternation
`enter, exit, enter, exit, …`, so inner executions happen one at a time,
in the order the lock is acquired; an invocation arriving while the lock
is held cannot acquire it (it blocks in `mu.Lock()`); and no invocation
is dropped: every waiting invocation can always be continued to
completion of its inner run. -/
theorem delay_mutual_exclusion (n : Nat) (s : DState) (h : DReach n s) :
    (∀ i j ti tai tj taj : Nat, s.threads[i]? = some (DPc.running ti tai) →
        s.threads[j]? = some (DPc.running tj taj) → i = j) ∧
    traceState s.trace = some s.lock ∧
    (∀ k : Nat, s.lock = some k → ∀ j : Nat, dstep s (DAct.acquire j) = none) ∧
    (∀ i t0 : Nat, s.threads[i]? = some (DPc.waiting t0) →
      ∃ acts s', drun s acts = some s' ∧
        ∃ ta : Nat, s'.threads[i]? = some (DPc.done t0 ta false)) := by
  have inv := delay_inv h
  refine ⟨?_, inv.traceOk, ?_, ?_⟩
  · intro i j ti tai tj taj hri hrj
    have h1 := (inv.lockPc i).mp ⟨ti, tai, hri⟩
    have h2 := (inv.lockPc j).mp ⟨tj, taj, hrj⟩
    rw [h1] at h2
    exact Option.some.inj h2
  · intro k hk j
    simp only [dstep]
    cases hpc : s.threads[j]? with
    | none => rfl
    | some pc =>
      cases pc with
      | idle => rfl
      | waiting t0 => rw [hk]
      | running a b => rfl
      | done a b f => rfl
  · intro i t0 hw
    exact delay_progress h hw

/-- C5: for every invocation of a `DelayIfStillRunning`-wrapped Job, the
wait is measured from call start (`arrive` stores the current clock as
`t0`) to lock acquisition, the informational `delay` record carrying
exactly that measured duration is emitted at acquisition if and only if
the wait strictly exceeds `time.Minute`, the inner Job then runs in
either case, and over any whole run the emitted records are exactly one
per lock acquisition whose wait exceeded the threshold (in acquisition
order), each invocation acquiring at most once. -/
theorem delay_log_threshold (n : Nat) (s : DState) (h : DReach n s) :
    s.logs = s.trace.reverse.filterMap DEv.delayOf ∧
    (∀ i, s.trace.countP (DEv.isEnterOf i) ≤ 1) ∧
    (∀ d, (LogRec.delayLog d).level = LogLevel.info) ∧
    (∀ i t0 s', s.threads[i]? = some (DPc.waiting t0) →
      dstep s (DAct.acquire i) = some s' →
      s'.logs = s.logs ++
        (if timeMinute < s.now - t0 then [LogRec.delayLog (s.now - t0)] else []) ∧
      s'.threads[i]? = some (DPc.running t0 s.now)) ∧
    (∀ i s', s.threads[i]? = some DPc.idle →
      dstep s (DAct.arrive i) = some s' →
      s'.threads[i]? = some (DPc.waiting s.now)) := by
  have inv := delay_inv h
  refine ⟨inv.logsOk, ?_, fun d => rfl, ?_, ?_⟩
  · intro i
    rw [inv.enterCount i]
    exact pcEnteredCount_le_one _
  · intro i t0 s' hw hstep
    have hi : i < s.threads.length := getElem?_some_lt hw
    simp only [dstep, hw] at hstep
    cases hl : s.lock with
    | some k =>
      rw [hl] at hstep
      cases hstep
    | none =>
      rw [hl] at hstep
      cases hstep
      constructor
      · simp [delayLogs]
      · exact set_getElem?_self _ hi
  · intro i s' hidle hstep
    have hi : i < s.threads.length := getElem?_some_lt hidle
    simp only [dstep, hidle] at hstep
    cases hstep
    exact set_getElem?_self _ hi

/-- A waiting invocation can acquire a free lock and start its inner
run. -/
theorem dstep_acquire_free {s : DState} {j u0 : Nat}
    (hj : s.threads[j]? = some (DPc.waiting u0)) (hl : s.lock = none) :
    ∃ s'', dstep s (DAct.acquire j) = some s'' ∧
      s''.threads[j]? = some (DPc.running u0 s.now) := by
  have hjl : j < s.threads.length := getElem?_some_lt hj
  refine ⟨{ s with lock := some j, threads := s.threads.set j (DPc.running u0 s.now), trace := DEv.enter j (s.now - u0) :: s.trace, logs := s.logs ++ delayLogs (s.now - u0) }, ?_, ?_⟩
  · simp only [dstep, hj, hl]
  · exact set_getElem?_self _ hjl

/-- C7: for every invocation of a `DelayIfStillRunning`-wrapped Job, the
deferred `mu.Unlock()` releases the lock on every exit path of
`j.Run()` — normal return and panic alike (`fault` ranges over both) —
leaving the mutex free, so that any waiting invocation can then acquire
it and run its inner Job. -/
theorem delay_lock_released (s : DState) (i : Nat) (fault : Bool) (s' : DState)
    (h : dstep s (DAct.finish i fault) = some s') :
    s'.lock = none ∧
    (∀ j t0 : Nat, s'.threads[j]? = some (DPc.waiting t0) →
      ∃ s'', dstep s' (DAct.acquire j) = some s'' ∧
        s''.threads[j]? = some (DPc.running t0 s'.now)) := by
  simp only [dstep] at h
  split at h
  · rename_i t0 ta heq
    cases h
    refine ⟨rfl, ?_⟩
    intro j u0 hj
    exact dstep_acquire_free hj rfl
  · cases h

/-! ### Claim theorems for `SkipIfStillRunning` -/

/-- C4: for every Job wrapped by `SkipIfStillRunning`, an invocation
arriving while a previous invocation is inside `j.Run()` takes the
`default` branch of the `select` in a single non-blocking step: it does
not run the inner Job (its program counter goes straight to `skipped`,
a terminal state with no further actions), it emits exactly one
informational `skip` record, it leaves the token and the running
invocation untouched, the running invocation can still run to
completion, and at most one invocation is inside `j.Run()` at any
time. -/
theorem skip_overlap_skips (n : Nat) (s : SState) (h : SReach n s) (i j : Nat)
    (hi : s.threads[i]? = some SPc.idle) (hj : s.threads[j]? = some SPc.running) :
    ∃ s', sstep s (SAct.invoke i) = some s' ∧
      s'.threads[i]? = some SPc.skipped ∧
      s'.logs = s.logs ++ [LogRec.skipLog] ∧
      LogRec.skipLog.level = LogLevel.info ∧
      s'.token = s.token ∧
      s'.threads[j]? = some SPc.running ∧
      (∀ k l : Nat, s'.threads[k]? = some SPc.running →
        s'.threads[l]? = some SPc.running → k = l) ∧
      sstep s' (SAct.invoke i) = none ∧
      (∀ f : Bool, sstep s' (SAct.finish i f) = none) ∧
      (∃ s'', sstep s' (SAct.finish j false) = some s'' ∧
        s''.threads[j]? = some (SPc.done false)) := by
  have inv := skip_inv h
  have hij : i ≠ j := by
    intro hh
    rw [hh, hj] at hi
    cases hi
  have hil : i < s.threads.length := getElem?_some_lt hi
  have hx : s.token = false ∧ ∃ k : Nat, s.threads[k]? = some SPc.running ∧
      ∀ i' : Nat, s.threads[i']? = some SPc.running → i' = k := by
    rcases inv.tokExcl with ⟨_, hnone⟩ | hr
    · exact absurd hj (hnone j)
    · exact hr
  obtain ⟨htokf, k0, hk0, huniq⟩ := hx
  refine ⟨{ s with threads := s.threads.set i SPc.skipped, logs := s.logs ++ [LogRec.skipLog] }, ?_, ?_, rfl, rfl, rfl, ?_, ?_, ?_, ?_, ?_⟩
  · simp only [sstep, hi, htokf]
    rfl
  · exact set_getElem?_self _ hil
  · show (s.threads.set i SPc.skipped)[j]? = some SPc.running
    rw [set_getElem?_ne _ hij]
    exact hj
  · intro k l hk hl
    have hki : k ≠ i := by
      intro hh
      rw [hh] at hk
      show False
      have := set_getElem?_self SPc.skipped hil
      rw [this] at hk
      cases hk
    have hli : l ≠ i := by
      intro hh
      rw [hh] at hl
      show False
      have := set_getElem?_self SPc.skipped hil
      rw [this] at hl
      cases hl
    rw [set_getElem?_ne _ (fun hh => hki hh.symm)] at hk
    rw [set_getElem?_ne _ (fun hh => hli hh.symm)] at hl
    exact (huniq k hk).trans (huniq l hl).symm
  · have hsk : (s.threads.set i SPc.skipped)[i]? = some SPc.skipped :=
      set_getElem?_self _ hil
    simp only [sstep, hsk]
  · intro f
    have hsk : (s.threads.set i SPc.skipped)[i]? = some SPc.skipped :=
      set_getElem?_self _ hil
    simp only [sstep, hsk]
  · have hrun : (s.threads.set i SPc.skipped)[j]? = some SPc.running := by
      rw [set_getElem?_ne _ hij]
      exact hj
    have hjl : j < (s.threads.set i SPc.skipped).length := getElem?_some_lt hrun
    refine ⟨{ s with threads := (s.threads.set i SPc.skipped).set j (SPc.done false), token := true, logs := s.logs ++ [LogRec.skipLog] }, ?_, ?_⟩
    · simp only [sstep, hrun]
    · exact set_getElem?_self _ hjl

/-- C6: for every Job wrapped by `SkipIfStillRunning`, the deferred
`ch <- v` returns the availability token on every exit path of
`j.Run()`, in particular when the inner Job panics (the panic keeps
propagating: the invocation ends as `done true`, nothing in this
wrapper recovers it); afterwards any non-overlapping invocation finds
the token, is not skipped, and runs its inner Job without emitting any
record. -/
theorem skip_token_restored_on_fault (s : SState) (i : Nat)
    (hi : s.threads[i]? = some SPc.running) :
    ∃ s', sstep s (SAct.finish i true) = some s' ∧
      s'.token = true ∧
      s'.threads[i]? = some (SPc.done true) ∧
      (∀ j : Nat, s'.threads[j]? = some SPc.idle →
        ∃ s'', sstep s' (SAct.invoke j) = some s'' ∧
          s''.threads[j]? = some SPc.running ∧ s''.logs = s'.logs) := by
  have hil : i < s.threads.length := getElem?_some_lt hi
  refine ⟨{ s with token := true, threads := s.threads.set i (SPc.done true) }, ?_, rfl, ?_, ?_⟩
  · simp only [sstep, hi]
  · exact set_getElem?_self _ hil
  · intro j hj
    have hjl : j < (s.threads.set i (SPc.done true)).length := getElem?_some_lt hj
    refine ⟨{ s with token := false, threads := (s.threads.set i (SPc.done true)).set j SPc.running }, ?_, ?_, rfl⟩
    · simp only [sstep, hj]
      rfl
    · exact set_getElem?_self _ hjl

/-- C9 (implicit): for every reachable state of a
`SkipIfStillRunning`-wrapped Job, exactly one availability token
exists: either it sits in the single-slot buffer and nobody is inside
`j.Run()`, or the buffer is empty and exactly one invocation is inside
`j.Run()`.  Consequently the deferred `ch <- v` of a running invocation
never blocks: whenever an invocation is running, the single-slot buffer
is empty, so the send has room. -/
theorem skip_token_conservation (n : Nat) (s : SState) (h : SReach n s) :
    ((s.token = true ∧ ∀ i : Nat, s.threads[i]? ≠ some SPc.running) ∨
     (s.token = false ∧ ∃ k : Nat, s.threads[k]? = some SPc.running ∧
        ∀ i : Nat, s.threads[i]? = some SPc.running → i = k)) ∧
    (∀ i : Nat, s.threads[i]? = some SPc.running → s.token = false) := by
  have inv := skip_inv h
  refine ⟨inv.tokExcl, ?_⟩
  intro i hi
  rcases inv.tokExcl with ⟨_, hnone⟩ | ⟨hf, _⟩
  · exact absurd hi (hnone i)
  · exact hf

/-! ### Claim theorems for `Chain` and `Recover` -/

/-- C2: for every sequence of wrappers and every Job,
`NewChain(w1, …, wn).Then(j)` equals the nested application
`w1(w2(…wn(j)…))` — stated as the right fold of function application
over the wrapper sequence, which is exactly that nesting for any
length. -/
theorem chain_then_eq_nested {Job : Type} (ws : List (JobWrapper Job)) (j : Job) :
    (NewChain ws).Then j = ws.foldr (fun w jb => w jb) j :=
  chain_then_loop ws j

/-- C8: for every Job `j`, `Then` of a chain with an empty wrapper
sequence returns `j` unchanged (identity law).  In this embedding
`Chain.Then` is a pure function of the chain and the Job — it is
deterministic, leaves the chain's wrapper sequence untouched, and
allocates nothing — mirroring the source, whose loop only rebinds the
local variable `j`. -/
theorem chain_empty_identity {Job : Type} (j : Job) :
    (NewChain ([] : List (JobWrapper Job))).Then j = j :=
  rfl

/-- C3 counterexample: it is not the case that every faulting invocation
of a `Recover`-wrapped Job produces an error-level log record: a Job
that panics with a `nil` value (`panic(nil)`, recovered as `r = nil`)
fails the source's `r != nil` test, so no record is emitted even though
the inner Job faulted. -/
theorem recover_nil_fault_unlogged :
    ¬ (∀ j : Exec, (∃ v, j.outcome = Outcome.panicked v) →
        (Recover j).logs.countP (fun r => decide (r.level = LogLevel.error))
          = j.logs.countP (fun r => decide (r.level = LogLevel.error)) + 1) := by
  intro hcl
  have h1 := hcl ⟨[], Outcome.panicked GoVal.goNil⟩ ⟨GoVal.goNil, rfl⟩
  exact absurd h1 (by decide)

/-- C3 (amended): if the inner Job raises a fault with a non-nil value,
`Recover` captures it with the stack trace, appends exactly one
error-level record containing the fault value and the trace, and the
wrapper's invocation completes normally without re-raising; if the
inner Job completes normally, no record is added (and the nil-fault
case, covered by `recover_nil_panic`, completes normally without a
record). -/
theorem recover_fault_logged (j : Exec) (v : GoVal)
    (hout : j.outcome = Outcome.panicked v) (hv : v ≠ GoVal.goNil) :
    (Recover j).logs = j.logs ++ [LogRec.panicLog v debugStack] ∧
    (LogRec.panicLog v debugStack).level = LogLevel.error ∧
    (Recover j).outcome = Outcome.normal ∧
    (∀ j' : Exec, j'.outcome = Outcome.normal →
      (Recover j').logs = j'.logs ∧ (Recover j').outcome = Outcome.normal) := by
  refine ⟨?_, rfl, rfl, ?_⟩
  · simp [Recover, hout, hv]
  · intro j' hj'
    constructor
    · simp [Recover, hj']
    · rfl

/-- C10 (implicit): a Job that panics with a `nil` value, wrapped by
`Recover`, completes normally and emits no log record: the deferred
`recover()` swallows the panic but `r != nil` is false, so `Errorf` is
never called. -/
theorem recover_nil_panic (logs : List LogRec) :
    Recover ⟨logs, Outcome.panicked GoVal.goNil⟩ = ⟨logs, Outcome.normal⟩ := by
  simp [Recover]

/-! ### Witnesses: the hypotheses of the claim theorems are satisfiable
at concrete, fully evaluated inputs -/

/-- Witness for `delay_mutual_exclusion`: its reachability hypothesis is
satisfied by the concrete state `s0Delay`. -/
theorem delay_mutual_exclusion_witness :
    DReach 2 s0Delay ∧
    ((∀ i j ti tai tj taj : Nat, s0Delay.threads[i]? = some (DPc.running ti tai) →
        s0Delay.threads[j]? = some (DPc.running tj taj) → i = j) ∧
      traceState s0Delay.trace = some s0Delay.lock ∧
      (∀ k : Nat, s0Delay.lock = some k →
        ∀ j : Nat, dstep s0Delay (DAct.acquire j) = none) ∧
      (∀ i t0 : Nat, s0Delay.threads[i]? = some (DPc.waiting t0) →
        ∃ acts s', drun s0Delay acts = some s' ∧
          ∃ ta : Nat, s'.threads[i]? = some (DPc.done t0 ta false))) :=
  ⟨⟨[DAct.arrive 0, DAct.acquire 0, DAct.arrive 1], by decide⟩,
    delay_mutual_exclusion 2 s0Delay
      ⟨[DAct.arrive 0, DAct.acquire 0, DAct.arrive 1], by decide⟩⟩

/-- Witness for `delay_log_threshold`: its reachability hypothesis is
satisfied by the concrete state `s5Delay`, whose run crossed the
one-minute threshold. -/
theorem delay_log_threshold_witness :
    DReach 1 s5Delay ∧
    (s5Delay.logs = s5Delay.trace.reverse.filterMap DEv.delayOf ∧
      (∀ i, s5Delay.trace.countP (DEv.isEnterOf i) ≤ 1) ∧
      (∀ d, (LogRec.delayLog d).level = LogLevel.info) ∧
      (∀ i t0 s', s5Delay.threads[i]? = some (DPc.waiting t0) →
        dstep s5Delay (DAct.acquire i) = some s' →
        s'.logs = s5Delay.logs ++
          (if timeMinute < s5Delay.now - t0 then [LogRec.delayLog (s5Delay.now - t0)]
            else []) ∧
        s'.threads[i]? = some (DPc.running t0 s5Delay.now)) ∧
      (∀ i s', s5Delay.threads[i]? = some DPc.idle →
        dstep s5Delay (DAct.arrive i) = some s' →
        s'.threads[i]? = some (DPc.waiting s5Delay.now))) :=
  ⟨⟨[DAct.arrive 0, DAct.tick 70000000000, DAct.acquire 0, DAct.finish 0 false],
      by decide⟩,
    delay_log_threshold 1 s5Delay
      ⟨[DAct.arrive 0, DAct.tick 70000000000, DAct.acquire 0, DAct.finish 0 false],
        by decide⟩⟩

/-- Witness for `delay_lock_released`: a panicking inner run (`fault =
true`) from the concrete state `d7s` releases the lock and lets the
waiting invocation 1 acquire it. -/
theorem delay_lock_released_witness :
    dstep d7s (DAct.finish 0 true) = some d7s' ∧
    (d7s'.lock = none ∧
      (∀ j t0 : Nat, d7s'.threads[j]? = some (DPc.waiting t0) →
        ∃ s'', dstep d7s' (DAct.acquire j) = some s'' ∧
          s''.threads[j]? = some (DPc.running t0 d7s'.now))) :=
  ⟨by decide, delay_lock_released d7s 0 true d7s' (by decide)⟩

/-- Witness for `skip_overlap_skips`: in the concrete reachable state
`s0Skip`, invocation 1 arrives while invocation 0 is running. -/
theorem skip_overlap_skips_witness :
    SReach 2 s0Skip ∧ s0Skip.threads[1]? = some SPc.idle ∧
    s0Skip.threads[0]? = some SPc.running ∧
    (∃ s', sstep s0Skip (SAct.invoke 1) = some s' ∧
      s'.threads[1]? = some SPc.skipped ∧
      s'.logs = s0Skip.logs ++ [LogRec.skipLog] ∧
      LogRec.skipLog.level = LogLevel.info ∧
      s'.token = s0Skip.token ∧
      s'.threads[0]? = some SPc.running ∧
      (∀ k l : Nat, s'.threads[k]? = some SPc.running →
        s'.threads[l]? = some SPc.running → k = l) ∧
      sstep s' (SAct.invoke 1) = none ∧
      (∀ f : Bool, sstep s' (SAct.finish 1 f) = none) ∧
      (∃ s'', sstep s' (SAct.finish 0 false) = some s'' ∧
        s''.threads[0]? = some (SPc.done false))) :=
  ⟨⟨[SAct.invoke 0], by decide⟩, by decide, by decide,
    skip_overlap_skips 2 s0Skip ⟨[SAct.invoke 0], by decide⟩ 1 0
      (by decide) (by decide)⟩

/-- Witness for `skip_token_restored_on_fault` at the concrete state
`s0Skip`, whose invocation 0 is running. -/
theorem skip_token_restored_on_fault_witness :
    s0Skip.threads[0]? = some SPc.running ∧
    (∃ s', sstep s0Skip (SAct.finish 0 true) = some s' ∧
      s'.token = true ∧
      s'.threads[0]? = some (SPc.done true) ∧
      (∀ j : Nat, s'.threads[j]? = some SPc.idle →
        ∃ s'', sstep s' (SAct.invoke j) = some s'' ∧
          s''.threads[j]? = some SPc.running ∧ s''.logs = s'.logs)) :=
  ⟨by decide, skip_token_restored_on_fault s0Skip 0 (by decide)⟩

/-- Witness for `skip_token_conservation` at the concrete reachable
state `s0Skip`. -/
theorem skip_token_conservation_witness :
    SReach 2 s0Skip ∧
    (((s0Skip.token = true ∧ ∀ i : Nat, s0Skip.threads[i]? ≠ some SPc.running) ∨
      (s0Skip.token = false ∧ ∃ k : Nat, s0Skip.threads[k]? = some SPc.running ∧
        ∀ i : Nat, s0Skip.threads[i]? = some SPc.running → i = k)) ∧
      (∀ i : Nat, s0Skip.threads[i]? = some SPc.running → s0Skip.token = false)) :=
  ⟨⟨[SAct.invoke 0], by decide⟩,
    skip_token_conservation 2 s0Skip ⟨[SAct.invoke 0], by decide⟩⟩

/-- Witness for `recover_fault_logged` at a Job panicking with the
non-nil marker value `"boom"`. -/
theorem recover_fault_logged_witness :
    (Exec.mk [] (Outcome.panicked (GoVal.val "boom"))).outcome
        = Outcome.panicked (GoVal.val "boom") ∧
    GoVal.val "boom" ≠ GoVal.goNil ∧
    ((Recover (Exec.mk [] (Outcome.panicked (GoVal.val "boom")))).logs
        = (Exec.mk [] (Outcome.panicked (GoVal.val "boom"))).logs
          ++ [LogRec.panicLog (GoVal.val "boom") debugStack] ∧
      (LogRec.panicLog (GoVal.val "boom") debugStack).level = LogLevel.error ∧
      (Recover (Exec.mk [] (Outcome.panicked (GoVal.val "boom")))).outcome
          = Outcome.normal ∧
      (∀ j' : Exec, j'.outcome = Outcome.normal →
        (Recover j').logs = j'.logs ∧ (Recover j').outcome = Outcome.normal)) :=
  ⟨rfl, by decide,
    recover_fault_logged (Exec.mk [] (Outcome.panicked (GoVal.val "boom")))
      (GoVal.val "boom") rfl (by decide)⟩
